import Mathlib

/-!
Verification of the commit correlation engine of `rebase-list.py`.

The program's text processing works on byte strings; we embed lines as
`List Char` (the inputs of interest are ASCII, and Python's lenient
`decode(errors='replace')`/`'�' → '?'` step never fails, so decoding is
modelled as the identity on already-decoded text).  Python dictionaries are
embedded as association lists in insertion order, Python sets as duplicate-free
lists.  Code that can raise (`lines[1]` on a short list, `raw_out.split()[0]`
on whitespace-only output) is embedded with `Option`.
-/

namespace RebaseList

/-- `CommitInfo` from `rebase-list.py` (lines 27-33): the per-commit record
holding author, date, subject line, patch fingerprint and raw revert token. -/
structure CommitInfo where
  author : String
  date : String
  message_first_line : String
  patch_hash : String
  reverts_commit : String
deriving DecidableEq, Repr

/-- ASCII whitespace stripped by Python's `bytes.strip()` with no argument. -/
def wsChars : List Char := [' ', '\t', '\n', '\r', '\x0b', '\x0c']

/-- Python `bytes.strip(set)`: remove the characters of `set` (a character
set, not a literal affix) from both ends. -/
def stripSet (set : List Char) (l : List Char) : List Char :=
  ((l.dropWhile (set.contains ·)).reverse.dropWhile (set.contains ·)).reverse

/-- Python `bytes.strip()` (whitespace from both ends). -/
def stripWs (l : List Char) : List Char := stripSet wsChars l

/-- Python `bytes.splitlines` restricted to the terminators `\n`, `\r`,
`\r\n`.  Trailing-terminator behaviour differs from Python only by a final
empty line, which the caller filters away. -/
def splitLinesAux : List Char → List Char → List (List Char)
  | [], cur => [cur.reverse]
  | '\r' :: '\n' :: rest, cur => cur.reverse :: splitLinesAux rest []
  | '\n' :: rest, cur => cur.reverse :: splitLinesAux rest []
  | '\r' :: rest, cur => cur.reverse :: splitLinesAux rest []
  | c :: rest, cur => splitLinesAux rest (c :: cur)

def splitLines (l : List Char) : List (List Char) := splitLinesAux l []

/-- Lines 47-48 of the source: strip every line of the `git show` output and
keep the non-empty ones. -/
def nonEmptyLines (text : List Char) : List (List Char) :=
  ((splitLines text).map stripWs).filter (· ≠ [])

/-- Python `full.startswith(pre)`, used on commit hashes (line 107). -/
def takeEq (l pre : List Char) : Bool := l.take pre.length == pre

/-- `\w` of the bytes regexes of the source: ASCII alphanumeric or `_`. -/
def isWordChar (c : Char) : Bool := c.isAlphanum || c = '_'

/-- The maximal non-empty run of word characters at the head, if any
(the greedy `(\w+)` capture of `REVERTS_REGEX`). -/
def takeWord1 (cs : List Char) : Option (List Char) :=
  let w := cs.takeWhile isWordChar
  if w = [] then none else some w

/-- The part of `REVERTS_REGEX` after `[Rr]everts `: the greedy optional
group `(?:commit )?` followed by the capture `(\w+)`, with the regex engine's
backtracking (if `commit ` is consumed but no word character follows, the
engine retries without consuming it and `(\w+)` then matches `commit`). -/
def revertsTail (cs : List Char) : Option (List Char) :=
  if takeEq cs ("commit ".toList) then
    match takeWord1 (cs.drop 7) with
    | some w => some w
    | none => takeWord1 cs
  else takeWord1 cs

/-- `REVERTS_REGEX.search` (line 37): `re.search(rb"[Rr]everts (?:commit )?(\w+)", line)`,
returning the capture group of the leftmost match.  A failed attempt at one
position resumes the scan at the next position. -/
def revertsSearch : List Char → Option (List Char)
  | [] => none
  | c :: rest =>
    if (c = 'R' ∨ c = 'r') ∧ takeEq rest ("everts ".toList) then
      match revertsTail (rest.drop 7) with
      | some w => some w
      | none => revertsSearch rest
    else revertsSearch rest

/-- One line of the loop of lines 59-63: keep the previous token unless this
line matches `REVERTS_REGEX`. -/
def revertsLineStep (acc l : List Char) : List Char :=
  match revertsSearch l with
  | some w => w
  | none => acc

/-- Lines 59-63 of the source: scan every (stripped, non-empty) line of the
`git show` output for `REVERTS_REGEX`; the last matching line wins, and the
token defaults to the empty string. -/
def extract_reverts (lines : List (List Char)) : List Char :=
  lines.foldl revertsLineStep []

/-- One candidate position for `AUTHOR_EMAIL_REGEX`: `body` is the line
without its final `>`; a `<` at index `i` is a match if the text after it
(`content`) matches `.+@.+`, i.e. contains an `@` that is neither its first
nor its last character.  The capture is the whole `content`. -/
def emailAt (body : List Char) (i : Nat) : Option (List Char) :=
  if (body.drop i).head? = some '<' then
    let content := body.drop (i + 1)
    if ((content.drop 1).dropLast).contains '@' then some content else none
  else none

/-- `AUTHOR_EMAIL_REGEX.search` (line 36): `re.search(rb"^.*<(.+@.+)>$", line)`.
The line must end in `>`; the greedy `.*` makes the engine pick the rightmost
`<` whose following text matches `.+@.+` before the final `>`. -/
def emailSearch (l : List Char) : Option (List Char) :=
  if l.getLast? = some '>' then
    ((List.range l.dropLast.length).reverse).findSome? (emailAt l.dropLast)
  else none

/-- Lines 50-54: the author field is the regex capture when the line matches,
else the raw line (the lenient byte decode is modelled as the identity). -/
def extract_author (l : List Char) : List Char :=
  match emailSearch l with
  | some email => email
  | none => l

/-- Character set of Python `strip(b'Date: ')`. -/
def dateLabelChars : List Char := ['D', 'a', 't', 'e', ':', ' ']

/-- Character set of Python `strip(b' +0000')`. -/
def utcSuffixChars : List Char := [' ', '+', '0']

/-- Line 56: `lines[2].strip().strip(b'Date: ').strip(b' +0000')`.
`bytes.strip` treats its argument as a character set. -/
def extract_date (l : List Char) : List Char :=
  stripSet utcSuffixChars (stripSet dateLabelChars (stripWs l))

/-- Python `str.split()` with no argument: split on runs of whitespace,
producing no empty words. -/
def splitWsAux : List Char → List Char → List (List Char)
  | [], cur => if cur = [] then [] else [cur.reverse]
  | c :: rest, cur =>
    if wsChars.contains c then
      if cur = [] then splitWsAux rest [] else cur.reverse :: splitWsAux rest []
    else splitWsAux rest (c :: cur)

def splitWs (l : List Char) : List (List Char) := splitWsAux l []

/-- Lines 72-75: the fingerprint is the first whitespace-delimited token of
the `git patch-id` output, or the empty string if that output is empty.
A non-empty but all-whitespace output makes `raw_out.split()[0]` raise
(IndexError), embedded as `none`. -/
def extract_patch_id (raw_out : List Char) : Option (List Char) :=
  if raw_out = [] then some []
  else
    match (splitWs raw_out).head? with
    | some t => some t
    | none => none

/-- The pure core of `get_commit_patch_id` (lines 40-76), taking the two
gateway outputs (`git show` text and `git patch-id` text) as inputs.
`lines[1]`, `lines[2]`, `lines[3]` raise IndexError when the stripped
non-empty line list is shorter than four entries, embedded as `none`. -/
def get_commit_patch_id (show_out patch_id_out : List Char) : Option CommitInfo :=
  match (nonEmptyLines show_out)[1]?, (nonEmptyLines show_out)[2]?,
      (nonEmptyLines show_out)[3]? with
  | some authorLine, some dateLine, some msgLine =>
    match extract_patch_id patch_id_out with
    | some pid =>
      some { author := String.mk (extract_author authorLine),
             date := String.mk (extract_date dateLine),
             message_first_line := String.mk msgLine,
             patch_hash := String.mk pid,
             reverts_commit := String.mk (extract_reverts (nonEmptyLines show_out)) }
    | none => none
  | _, _, _ => none

/-! ## Python dictionaries and sets

A Python `dict` is embedded as an association list in insertion order
(CPython guarantees insertion-ordered iteration); a Python `set` of strings,
used here only for membership and size, as a duplicate-free list. -/

/-- `k in d` on a Python dict. -/
def isKey : List (String × α) → String → Bool
  | [], _ => false
  | p :: t, k => p.1 = k || isKey t k

/-- `d[k]` on a Python dict, as an `Option` (a missing key raises KeyError).
A dict's keys are unique, so taking the first matching entry is exact. -/
def dictGet : List (String × α) → String → Option α
  | [], _ => none
  | p :: t, k => if p.1 = k then some p.2 else dictGet t k

/-- `d[k] = v` on a Python dict: overwrite the value in place if the key
exists (keys are unique, so at its first occurrence), else append at the
end. -/
def dictInsert : List (String × α) → String → α → List (String × α)
  | [], k, v => [(k, v)]
  | p :: t, k, v => if p.1 = k then (k, v) :: t else p :: dictInsert t k v

/-- `d.setdefault(k, []).append(v)` on a Python dict of lists (line 96). -/
def multiAppend : List (String × List String) → String → String →
    List (String × List String)
  | [], k, v => [(k, [v])]
  | p :: t, k, v =>
    if p.1 = k then (p.1, p.2 ++ [v]) :: t else p :: multiAppend t k v

/-- `s.add(x)` on a Python set embedded as a duplicate-free list. -/
def setAdd (s : List String) (x : String) : List String :=
  if s.contains x then s else s ++ [x]

/-! ## Correlation engine -/

/-- One insertion of the loop of `build_patch_id_map` (line 84). -/
def insStep (d : List (String × CommitInfo)) (p : String × CommitInfo) :
    List (String × CommitInfo) :=
  dictInsert d p.1 p.2

/-- `build_patch_id_map` (lines 79-89).  `pool.imap_unordered` yields the
fetched `(commit, CommitInfo)` results in thread completion order, a
nondeterministically chosen arrangement of the fetched pairs; `arrival` is
that sequence, and the dict is populated in that order. -/
def build_patch_id_map (arrival : List (String × CommitInfo)) :
    List (String × CommitInfo) :=
  arrival.foldl insStep []

/-- One iteration of the loop of `inverse_map` (lines 94-96). -/
def invStep (r : List (String × List String)) (p : String × CommitInfo) :
    List (String × List String) :=
  if p.2.patch_hash ≠ "" then multiAppend r p.2.patch_hash p.1 else r

/-- `inverse_map` (lines 92-98): fingerprint → commits with that fingerprint,
skipping commits whose fingerprint is the empty string. -/
def inverse_map (commits : List (String × CommitInfo)) :
    List (String × List String) :=
  commits.foldl invStep []

/-- The assignment of line 148: `duplicates[commit] = [c for c in group if c != commit]`. -/
def dupGroupStep (group : List String) (d : List (String × List String))
    (c : String) : List (String × List String) :=
  dictInsert d c (group.filter (fun x => x ≠ c))

/-- One iteration of the outer loop of lines 145-148. -/
def dupStep (dups : List (String × List String)) (p : String × List String) :
    List (String × List String) :=
  if 1 < p.2.length then p.2.foldl (dupGroupStep p.2) dups else dups

/-- Lines 144-148 of `main`: every fingerprint group of size above one makes
each of its commits a key mapping to the other commits of the group. -/
def build_duplicates (inv : List (String × List String)) :
    List (String × List String) :=
  inv.foldl dupStep []

/-- `search_full_commit_hash` (lines 101-109): exact key match first, then the
first key in dict iteration order of which `commit_hash` is a prefix.
(The source's second `if commit_hash not in commits` test is redundant in its
`else` position and is dropped.) -/
def search_full_commit_hash (commit_hash : String)
    (commits : List (String × CommitInfo)) : Option String :=
  if isKey commits commit_hash then some commit_hash
  else (commits.find? (fun p => takeEq p.1.toList commit_hash.toList)).map (·.1)

/-- `info.reverts_commit = full` (line 127): the in-place mutation of the
`CommitInfo` stored under key `k`. -/
def updateReverts (m : List (String × CommitInfo)) (k full : String) :
    List (String × CommitInfo) :=
  m.map (fun p => if p.1 = k then (p.1, { p.2 with reverts_commit := full }) else p)

/-- One iteration of the loop of `build_reverts` (lines 116-127).  The
accumulator is `(reverted_from_branch, reverts_from_upstream, from_branch)`,
the last component tracking the mutation of `reverts_commit` fields.
`search_full_commit_hash` reads only the keys of its dict, which the mutation
never changes, so it is passed the original maps. -/
def revertsStep (from_branch from_upstream : List (String × CommitInfo))
    (acc : List (String × String) × List String × List (String × CommitInfo))
    (p : String × CommitInfo) :
    List (String × String) × List String × List (String × CommitInfo) :=
  if p.2.reverts_commit ≠ "" then
    match search_full_commit_hash p.2.reverts_commit from_branch with
    | some full =>
      (dictInsert acc.1 full p.1, acc.2.1, updateReverts acc.2.2 p.1 full)
    | none =>
      match search_full_commit_hash p.2.reverts_commit from_upstream with
      | some full =>
        (acc.1, setAdd acc.2.1 p.1, updateReverts acc.2.2 p.1 full)
      | none => acc
  else acc

/-- `build_reverts` (lines 112-129), returning additionally the branch map
with its `reverts_commit` fields overwritten by the resolved full hashes. -/
def build_reverts (from_branch from_upstream : List (String × CommitInfo)) :
    List (String × String) × List String × List (String × CommitInfo) :=
  from_branch.foldl (revertsStep from_branch from_upstream)
    ([], [], from_branch)

/-- One iteration of the loop of lines 158-162 of `main`. -/
def faeStep (uinv : List (String × List String))
    (acc : Nat × List (String × List String)) (p : String × CommitInfo) :
    Nat × List (String × List String) :=
  if p.2.patch_hash = "" then (acc.1 + 1, acc.2)
  else
    match dictGet uinv p.2.patch_hash with
    | some l => (acc.1, dictInsert acc.2 p.1 l)
    | none => acc

/-- Lines 156-162 of `main`: count the commits with empty fingerprint and
collect, for the others whose fingerprint is a key of the upstream inverse
map, the full upstream commit list of that fingerprint. -/
def found_and_empty (bm : List (String × CommitInfo))
    (uinv : List (String × List String)) :
    Nat × List (String × List String) :=
  bm.foldl (faeStep uinv) (0, [])

/-- Line 177 of the source tests `branch_patch_id_map[commit] is None`.  The
values of that dict are `CommitInfo` objects produced by
`get_commit_patch_id`, never Python `None`, so the test is false for every
key present in the map. -/
def isNoneValue (_info : CommitInfo) : Bool := false

def defaultInfo : CommitInfo :=
  { author := "", date := "", message_first_line := "",
    patch_hash := "", reverts_commit := "" }

/-- One line of the report (lines 172-194 of `main`).  Python would raise
KeyError were `commit` missing from `bm`; the run always populates `bm` from
the same commit list, and the embedding supplies a dummy record in that
unreachable case. -/
def report_line (bm : List (String × CommitInfo))
    (found dups : List (String × List String))
    (rb : List (String × String)) (ru : List String) (commit : String) :
    String :=
  let info := (dictGet bm commit).getD defaultInfo
  let msgs : List String :=
    (match dictGet found commit with
     | some l => ["found in upstream [" ++ (", ".intercalate l) ++ "]"]
     | none => [])
    ++ (if isNoneValue info then ["empty commit"] else [])
    ++ (match dictGet dups commit with
        | some l => ["duplicate of [" ++ (", ".intercalate l) ++ "]"]
        | none => [])
    ++ (match dictGet rb commit with
        | some r => ["reverted by " ++ r]
        | none => [])
    ++ (if info.reverts_commit ≠ "" then
          [if ru.contains commit then "reverts upstream " ++ info.reverts_commit
           else if isKey rb info.reverts_commit then
             "reverts branch " ++ info.reverts_commit
           else "reverts unknown " ++ info.reverts_commit]
        else [])
  let extra := "; ".intercalate msgs
  commit ++ "\t" ++ info.date ++ "\t" ++ info.author ++ "\t"
    ++ info.message_first_line
    ++ (if extra ≠ "" then "\t" ++ extra else "")

/-- The counters and detail lines printed by `main`. -/
structure RunResult where
  total : Nat
  empty_commits : Nat
  found_count : Nat
  reverted_count : Nat
  reverts_upstream_count : Nat
  effective : Int
  report : List String
deriving DecidableEq, Repr

/-- `main` (lines 132-194) after the two `git rev-list` calls:
`branch_list` and `upstream_list` are the gateway's two one-sided
differences, and `branch_arrival` / `upstream_arrival` the sequences in
which the parallel per-commit fetch results complete. -/
def main_core (branch_list _upstream_list : List String)
    (branch_arrival upstream_arrival : List (String × CommitInfo)) :
    RunResult :=
  let branch_map := build_patch_id_map branch_arrival
  let branch_inv := inverse_map branch_map
  let dups := build_duplicates branch_inv
  let upstream_map := build_patch_id_map upstream_arrival
  let upstream_inv := inverse_map upstream_map
  let br := build_reverts branch_map upstream_map
  let branch_map2 := br.2.2
  let fe := found_and_empty branch_map2 upstream_inv
  { total := branch_list.length
    empty_commits := fe.1
    found_count := fe.2.length
    reverted_count := br.1.length
    reverts_upstream_count := br.2.1.length
    effective := (branch_list.length : Int) - (fe.2.length : Int) - (fe.1 : Int)
    report := branch_list.reverse.map (report_line branch_map2 fe.2 dups br.1 br.2.1) }

/-- Specification helper: the key together with the fingerprint of a map
entry — the projection that `build_reverts`' mutation of `reverts_commit`
fields leaves untouched. -/
def hashProj (p : String × CommitInfo) : String × String :=
  (p.1, p.2.patch_hash)

/-- Specification helper: the commits of `bm`, in map order, whose
fingerprint is `h`.  `inverse_map bm` maps each non-empty fingerprint `h`
occurring in `bm` to exactly this list. -/
def matchKeys (bm : List (String × CommitInfo)) (h : String) : List String :=
  bm.filterMap (fun p => if p.2.patch_hash = h then some p.1 else none)

/-- Fixture for concrete runs: a `CommitInfo` with the given fingerprint and
revert token. -/
def infoWith (h r : String) : CommitInfo :=
  { author := "au", date := "dt", message_first_line := "ms",
    patch_hash := h, reverts_commit := r }

/-!
## Theorems

First a layer of lemmas about the dict embedding, then one theorem (plus
witness or counterexample) per claim.
-/

section DictLemmas

variable {α : Type}

theorem isKey_eq_true_iff {d : List (String × α)} {k : String} :
    isKey d k = true ↔ k ∈ d.map Prod.fst := by
  induction d with
  | nil => simp [isKey]
  | cons p t ih =>
    simp only [isKey, Bool.or_eq_true, decide_eq_true_eq, ih, List.map_cons,
      List.mem_cons]
    exact or_congr eq_comm Iff.rfl

theorem dictGet_eq_none {d : List (String × α)} {k : String}
    (h : isKey d k = false) : dictGet d k = none := by
  induction d with
  | nil => rfl
  | cons p t ih =>
    simp only [isKey, Bool.or_eq_false_iff, decide_eq_false_iff_not] at h
    simp only [dictGet, if_neg h.1]
    exact ih h.2

theorem isKey_eq_isSome_dictGet {d : List (String × α)} {k : String} :
    isKey d k = (dictGet d k).isSome := by
  induction d with
  | nil => rfl
  | cons p t ih =>
    by_cases hp : p.1 = k
    · simp [isKey, dictGet, hp]
    · simp [isKey, dictGet, hp, ih]

theorem mem_of_dictGet_eq_some {d : List (String × α)} {k : String} {v : α}
    (h : dictGet d k = some v) : (k, v) ∈ d := by
  induction d with
  | nil => simp [dictGet] at h
  | cons p t ih =>
    obtain ⟨p1, p2⟩ := p
    by_cases hp : p1 = k
    · subst hp
      simp only [dictGet, if_pos rfl] at h
      injection h with h
      subst h
      exact List.mem_cons_self _ _
    · simp only [dictGet, if_neg hp] at h
      exact List.mem_cons_of_mem _ (ih h)

theorem dictGet_eq_some_of_mem {d : List (String × α)}
    (hnd : (d.map Prod.fst).Nodup) {k : String} {v : α} (h : (k, v) ∈ d) :
    dictGet d k = some v := by
  induction d with
  | nil => simp at h
  | cons p t ih =>
    simp only [List.map_cons, List.nodup_cons] at hnd
    rcases List.mem_cons.mp h with h | h
    · subst h
      simp [dictGet]
    · have hk : p.1 ≠ k := by
        intro e
        exact hnd.1 (e ▸ List.mem_map_of_mem Prod.fst h)
      simp [dictGet, hk, ih hnd.2 h]

theorem dictGet_dictInsert_self (d : List (String × α)) (k : String) (v : α) :
    dictGet (dictInsert d k v) k = some v := by
  induction d with
  | nil => simp [dictInsert, dictGet]
  | cons p t ih =>
    by_cases hp : p.1 = k
    · simp [dictInsert, hp, dictGet]
    · simp [dictInsert, hp, dictGet, ih]

theorem dictGet_dictInsert_ne (d : List (String × α)) {k k' : String}
    (v : α) (h : k' ≠ k) : dictGet (dictInsert d k v) k' = dictGet d k' := by
  induction d with
  | nil => simp [dictInsert, dictGet, Ne.symm h]
  | cons p t ih =>
    by_cases hp : p.1 = k
    · have h2 : ¬ p.1 = k' := by rw [hp]; exact Ne.symm h
      simp only [dictInsert, if_pos hp, dictGet, if_neg (Ne.symm h), if_neg h2]
    · simp only [dictInsert, if_neg hp]
      by_cases hq : p.1 = k'
      · simp only [dictGet, if_pos hq]
      · simp only [dictGet, if_neg hq, ih]

theorem isKey_dictInsert (d : List (String × α)) (k k' : String) (v : α) :
    isKey (dictInsert d k v) k' = (isKey d k' || decide (k' = k)) := by
  by_cases h : k' = k
  · subst h
    rw [isKey_eq_isSome_dictGet, dictGet_dictInsert_self]
    simp
  · rw [isKey_eq_isSome_dictGet, dictGet_dictInsert_ne _ _ h,
      ← isKey_eq_isSome_dictGet]
    simp [h]

theorem dictInsert_eq_append {d : List (String × α)} {k : String}
    (v : α) (h : isKey d k = false) : dictInsert d k v = d ++ [(k, v)] := by
  induction d with
  | nil => rfl
  | cons p t ih =>
    simp only [isKey, Bool.or_eq_false_iff, decide_eq_false_iff_not] at h
    simp [dictInsert, h.1, ih h.2]

theorem length_dictInsert_of_isKey_false {d : List (String × α)} {k : String}
    (v : α) (h : isKey d k = false) :
    (dictInsert d k v).length = d.length + 1 := by
  rw [dictInsert_eq_append v h]
  simp

theorem dictGet_multiAppend_self (d : List (String × List String))
    (k v : String) :
    dictGet (multiAppend d k v) k = some ((dictGet d k).getD [] ++ [v]) := by
  induction d with
  | nil => simp [multiAppend, dictGet]
  | cons p t ih =>
    by_cases hp : p.1 = k
    · simp [multiAppend, hp, dictGet]
    · simp [multiAppend, hp, dictGet, ih]

theorem dictGet_multiAppend_ne (d : List (String × List String))
    {k k' : String} (v : String) (h : k' ≠ k) :
    dictGet (multiAppend d k v) k' = dictGet d k' := by
  induction d with
  | nil => simp [multiAppend, dictGet, Ne.symm h]
  | cons p t ih =>
    by_cases hp : p.1 = k
    · have h2 : ¬ p.1 = k' := by rw [hp]; exact Ne.symm h
      simp only [multiAppend, if_pos hp, dictGet, if_neg h2]
    · simp only [multiAppend, if_neg hp]
      by_cases hq : p.1 = k'
      · simp only [dictGet, if_pos hq]
      · simp only [dictGet, if_neg hq, ih]

theorem isKey_multiAppend (d : List (String × List String)) (k k' v : String) :
    isKey (multiAppend d k v) k' = (isKey d k' || decide (k' = k)) := by
  by_cases h : k' = k
  · subst h
    rw [isKey_eq_isSome_dictGet, dictGet_multiAppend_self]
    simp
  · rw [isKey_eq_isSome_dictGet, dictGet_multiAppend_ne _ _ h,
      ← isKey_eq_isSome_dictGet]
    simp [h]

theorem map_fst_multiAppend (d : List (String × List String)) (k v : String) :
    (multiAppend d k v).map Prod.fst
      = if isKey d k then d.map Prod.fst else d.map Prod.fst ++ [k] := by
  induction d with
  | nil => simp [multiAppend, isKey]
  | cons p t ih =>
    by_cases hp : p.1 = k
    · simp [multiAppend, hp, isKey]
    · simp only [multiAppend, if_neg hp, List.map_cons, ih, isKey]
      by_cases ht : isKey t k
      · simp [ht, hp]
      · simp [ht, hp]

theorem nodup_map_fst_multiAppend {d : List (String × List String)}
    (hnd : (d.map Prod.fst).Nodup) (k v : String) :
    ((multiAppend d k v).map Prod.fst).Nodup := by
  rw [map_fst_multiAppend]
  by_cases h : isKey d k
  · simpa [h]
  · have hk : k ∉ d.map Prod.fst := by
      rw [← isKey_eq_true_iff]
      simp [h]
    simp only [h, if_false]
    exact List.Nodup.append hnd (List.nodup_singleton _)
      (by simpa using hk)

end DictLemmas

section FoundUpstream

theorem faeStep_eq (uinv : List (String × List String))
    (acc : Nat × List (String × List String)) (c : String) (i : CommitInfo) :
    faeStep uinv acc (c, i)
      = if i.patch_hash = "" then (acc.1 + 1, acc.2)
        else
          match dictGet uinv i.patch_hash with
          | some l => (acc.1, dictInsert acc.2 c l)
          | none => acc := rfl

theorem fae_get_of_not_mem (uinv : List (String × List String)) :
    ∀ (l : List (String × CommitInfo))
      (acc : Nat × List (String × List String)) {c : String},
      c ∉ l.map Prod.fst →
      dictGet (l.foldl (faeStep uinv) acc).2 c = dictGet acc.2 c := by
  intro l
  induction l with
  | nil => intro acc c _; rfl
  | cons p t ih =>
    intro acc c h
    simp only [List.map_cons, List.mem_cons, not_or] at h
    rw [List.foldl_cons, ih _ h.2]
    obtain ⟨p1, p2⟩ := p
    by_cases he : p2.patch_hash = ""
    · rw [faeStep_eq, if_pos he]
    · rw [faeStep_eq, if_neg he]
      cases hg : dictGet uinv p2.patch_hash with
      | none => simp only [hg]
      | some lv =>
        simp only [hg]
        exact dictGet_dictInsert_ne _ _ (fun e => h.1 e)

theorem fae_get_found (uinv : List (String × List String)) :
    ∀ (l : List (String × CommitInfo))
      (acc : Nat × List (String × List String)) {c : String} {i : CommitInfo},
      (l.map Prod.fst).Nodup → (c, i) ∈ l → i.patch_hash ≠ "" →
      isKey acc.2 c = false →
      dictGet (l.foldl (faeStep uinv) acc).2 c = dictGet uinv i.patch_hash := by
  intro l
  induction l with
  | nil => intro _ _ _ _ hmem; simp at hmem
  | cons p t ih =>
    intro acc c i hnd hmem hne hacc
    simp only [List.map_cons, List.nodup_cons] at hnd
    rw [List.foldl_cons]
    rcases List.mem_cons.mp hmem with h | h
    · subst h
      have hct : c ∉ t.map Prod.fst := by simpa using hnd.1
      rw [fae_get_of_not_mem uinv t _ hct, faeStep_eq, if_neg hne]
      cases hg : dictGet uinv i.patch_hash with
      | none => simp only [hg]; exact dictGet_eq_none hacc
      | some lv => simp only [hg]; exact dictGet_dictInsert_self acc.2 c lv
    · have hpc : p.1 ≠ c := by
        intro e
        exact hnd.1 (by rw [e]; exact List.mem_map_of_mem Prod.fst h)
      have hacc' : isKey (faeStep uinv acc p).2 c = false := by
        obtain ⟨p1, p2⟩ := p
        by_cases he : p2.patch_hash = ""
        · rw [faeStep_eq, if_pos he]; exact hacc
        · rw [faeStep_eq, if_neg he]
          cases hg : dictGet uinv p2.patch_hash with
          | none => simp only [hg]; exact hacc
          | some lv =>
            simp only [hg, isKey_dictInsert]
            simp [hacc, Ne.symm hpc]
      exact ih _ hnd.2 h hne hacc'

end FoundUpstream

/-- C3: for every branch commit `c` with non-empty fingerprint, looking `c`
up in the found-upstream map gives exactly the result of looking its
fingerprint up in the upstream inverse index: `c` is a key of the
found-upstream map iff the fingerprint is a key of the upstream index
(both lookups are `some` together), and in that case the mapped list is
exactly the upstream index's list. -/
theorem c3_found_upstream_iff (bm : List (String × CommitInfo))
    (uinv : List (String × List String)) (c : String) (i : CommitInfo)
    (hnd : (bm.map Prod.fst).Nodup) (hmem : (c, i) ∈ bm)
    (hne : i.patch_hash ≠ "") :
    dictGet (found_and_empty bm uinv).2 c = dictGet uinv i.patch_hash :=
  fae_get_found uinv bm (0, []) hnd hmem hne rfl

/-- C3, witness: a concrete branch commit with fingerprint "h" present
upstream under commits ["u1"]. -/
theorem c3_found_upstream_iff_witness :
    dictGet (found_and_empty [(("c1" : String), infoWith "h" "")]
        [(("h" : String), ["u1"])]).2 ("c1")
      = dictGet [(("h" : String), ["u1"])] ((infoWith "h" "").patch_hash) :=
  c3_found_upstream_iff [(("c1" : String), infoWith "h" "")]
    [(("h" : String), ["u1"])] ("c1") (infoWith "h" "")
    (by decide) (by decide) (by decide)

section Reverts

theorem revertsStep_eq (fb fu : List (String × CommitInfo))
    (acc : List (String × String) × List String × List (String × CommitInfo))
    (c : String) (i : CommitInfo) :
    revertsStep fb fu acc (c, i)
      = if i.reverts_commit ≠ "" then
          match search_full_commit_hash i.reverts_commit fb with
          | some full =>
            (dictInsert acc.1 full c, acc.2.1, updateReverts acc.2.2 c full)
          | none =>
            match search_full_commit_hash i.reverts_commit fu with
            | some full =>
              (acc.1, setAdd acc.2.1 c, updateReverts acc.2.2 c full)
            | none => acc
        else acc := rfl

theorem not_mem_setAdd {s : List String} {x c : String}
    (h1 : c ∉ s) (h2 : c ≠ x) : c ∉ setAdd s x := by
  unfold setAdd
  split
  · exact h1
  · simp [h1, h2]

theorem ru_not_mem (fb fu : List (String × CommitInfo)) {c : String} :
    ∀ (l : List (String × CommitInfo))
      (acc : List (String × String) × List String × List (String × CommitInfo)),
      c ∉ acc.2.1 →
      (∀ i', (c, i') ∈ l → i'.reverts_commit ≠ "" →
        search_full_commit_hash i'.reverts_commit fb ≠ none) →
      c ∉ (l.foldl (revertsStep fb fu) acc).2.1 := by
  intro l
  induction l with
  | nil => intro acc h _; exact h
  | cons p rest ih =>
    intro acc hacc hcond
    rw [List.foldl_cons]
    apply ih
    · obtain ⟨p1, p2⟩ := p
      by_cases he : p2.reverts_commit = ""
      · rw [revertsStep_eq, if_neg (not_not_intro he)]
        exact hacc
      · rw [revertsStep_eq, if_pos he]
        cases hsb : search_full_commit_hash p2.reverts_commit fb with
        | some full => simp only [hsb]; exact hacc
        | none =>
          cases hsu : search_full_commit_hash p2.reverts_commit fu with
          | none => simp only [hsb, hsu]; exact hacc
          | some full =>
            simp only [hsb, hsu]
            have hp1 : p1 ≠ c := by
              intro e
              subst e
              exact hcond p2 (List.mem_cons_self _ _) he hsb
            exact not_mem_setAdd hacc (Ne.symm hp1)
    · intro i' hm hne hs
      exact hcond i' (List.mem_cons_of_mem _ hm) hne hs

theorem rb_get_preserved (fb fu : List (String × CommitInfo)) {t c : String}
    (hU : ∀ p, p ∈ fb → p.2.reverts_commit ≠ "" →
      search_full_commit_hash p.2.reverts_commit fb = some t → p.1 = c) :
    ∀ (l : List (String × CommitInfo))
      (acc : List (String × String) × List String × List (String × CommitInfo)),
      (∀ p ∈ l, p ∈ fb) → (∀ p ∈ l, p.1 ≠ c) →
      dictGet acc.1 t = some c →
      dictGet (l.foldl (revertsStep fb fu) acc).1 t = some c := by
  intro l
  induction l with
  | nil => intro acc _ _ h; exact h
  | cons p rest ih =>
    intro acc hsub hkey hget
    rw [List.foldl_cons]
    apply ih _ (fun q hq => hsub q (List.mem_cons_of_mem _ hq))
      (fun q hq => hkey q (List.mem_cons_of_mem _ hq))
    obtain ⟨p1, p2⟩ := p
    by_cases he : p2.reverts_commit = ""
    · rw [revertsStep_eq, if_neg (not_not_intro he)]
      exact hget
    · rw [revertsStep_eq, if_pos he]
      cases hsb : search_full_commit_hash p2.reverts_commit fb with
      | none =>
        cases hsu : search_full_commit_hash p2.reverts_commit fu with
        | some full => simp only [hsb, hsu]; exact hget
        | none => simp only [hsb, hsu]; exact hget
      | some full =>
        simp only [hsb]
        have hft : full ≠ t := by
          intro e
          subst e
          exact hkey (p1, p2) (List.mem_cons_self _ _)
            (hU (p1, p2) (hsub (p1, p2) (List.mem_cons_self _ _)) he hsb)
        rw [dictGet_dictInsert_ne _ _ (Ne.symm hft)]
        exact hget

theorem build_reverts_split (fb fu : List (String × CommitInfo))
    (l1 l2 : List (String × CommitInfo)) (c : String) (i : CommitInfo)
    (hsplit : fb = l1 ++ (c, i) :: l2) :
    build_reverts fb fu
      = l2.foldl (revertsStep fb fu)
          (revertsStep fb fu (l1.foldl (revertsStep fb fu) ([], [], fb)) (c, i)) := by
  conv_lhs => rw [build_reverts]
  rw [hsplit, List.foldl_append, List.foldl_cons]

end Reverts

/-- C4: if a branch commit `c`'s revert token resolves (exactly or by
prefix) in the branch-only map — regardless of it also resolving in the
upstream-only map — the branch match wins: the resolved target `t` maps to
the reverter in `reverted_from_branch`, and `c` is not added to
`reverts_from_upstream`.  The engine records at most one reverter per
target (last writer wins), so the recorded pair is stated under the
hypothesis that `c` is the only branch commit whose token resolves to `t`. -/
theorem c4_branch_match_wins (fb fu : List (String × CommitInfo))
    (c t : String) (i : CommitInfo)
    (hnd : (fb.map Prod.fst).Nodup) (hmem : (c, i) ∈ fb)
    (hne : i.reverts_commit ≠ "")
    (hb : search_full_commit_hash i.reverts_commit fb = some t)
    (_hu : (search_full_commit_hash i.reverts_commit fu).isSome = true)
    (hUniq : ∀ p, p ∈ fb → p.2.reverts_commit ≠ "" →
      search_full_commit_hash p.2.reverts_commit fb = some t → p.1 = c) :
    dictGet (build_reverts fb fu).1 t = some c
      ∧ c ∉ (build_reverts fb fu).2.1 := by
  obtain ⟨l1, l2, hsplit⟩ := List.append_of_mem hmem
  have hk12 : c ∉ l1.map Prod.fst ∧ c ∉ l2.map Prod.fst := by
    rw [hsplit] at hnd
    simp only [List.map_append, List.map_cons] at hnd
    have h2 := List.nodup_middle.mp hnd
    rw [List.nodup_cons] at h2
    exact ⟨fun h => h2.1 (List.mem_append_left _ h),
           fun h => h2.1 (List.mem_append_right _ h)⟩
  have hstep : revertsStep fb fu (l1.foldl (revertsStep fb fu) ([], [], fb)) (c, i)
      = (dictInsert (l1.foldl (revertsStep fb fu) ([], [], fb)).1 t c,
         (l1.foldl (revertsStep fb fu) ([], [], fb)).2.1,
         updateReverts (l1.foldl (revertsStep fb fu) ([], [], fb)).2.2 c t) := by
    rw [revertsStep_eq, if_pos hne, hb]
  rw [build_reverts_split fb fu l1 l2 c i hsplit, hstep]
  have hsub : ∀ p ∈ l2, p ∈ fb := by
    intro p hp
    rw [hsplit]
    exact List.mem_append_right _ (List.mem_cons_of_mem _ hp)
  have hkey : ∀ p ∈ l2, p.1 ≠ c := by
    intro p hp e
    exact hk12.2 (by rw [← e]; exact List.mem_map_of_mem Prod.fst hp)
  constructor
  · exact rb_get_preserved fb fu hUniq l2 _ hsub hkey
      (dictGet_dictInsert_self _ _ _)
  · have hmidru : c ∉ (l1.foldl (revertsStep fb fu) ([], [], fb)).2.1 :=
      ru_not_mem fb fu l1 ([], [], fb) (by simp)
        (fun i' hm => (hk12.1 (List.mem_map_of_mem Prod.fst hm)).elim)
    exact ru_not_mem fb fu l2 _ hmidru
      (fun i' hm => (hk12.2 (List.mem_map_of_mem Prod.fst hm)).elim)

/-- C4, witness: commit "bbb" reverts token "aa", a prefix of branch commit
"aaa" and of upstream commit "aac"; the branch match wins. -/
theorem c4_branch_match_wins_witness :
    dictGet (build_reverts
        [(("aaa" : String), infoWith "F1" ""), (("bbb" : String), infoWith "F2" "aa")]
        [(("aac" : String), infoWith "F3" "")]).1 ("aaa") = some ("bbb")
      ∧ ("bbb" : String) ∉ (build_reverts
        [(("aaa" : String), infoWith "F1" ""), (("bbb" : String), infoWith "F2" "aa")]
        [(("aac" : String), infoWith "F3" "")]).2.1 :=
  c4_branch_match_wins
    [(("aaa" : String), infoWith "F1" ""), (("bbb" : String), infoWith "F2" "aa")]
    [(("aac" : String), infoWith "F3" "")]
    ("bbb") ("aaa") (infoWith "F2" "aa")
    (by decide) (by decide) (by decide) (by decide) (by decide)
    (by
      intro p hp hne hs
      simp only [List.mem_cons, List.not_mem_nil, or_false] at hp
      rcases hp with rfl | rfl
      · exact absurd rfl hne
      · rfl)

section Duplicates

theorem inverse_map_append_singleton (bs : List (String × CommitInfo))
    (p : String × CommitInfo) :
    inverse_map (bs ++ [p]) = invStep (inverse_map bs) p := by
  simp [inverse_map, List.foldl_append]

theorem matchKeys_append_singleton (bs : List (String × CommitInfo))
    (p : String × CommitInfo) (h : String) :
    matchKeys (bs ++ [p]) h
      = matchKeys bs h ++ (if p.2.patch_hash = h then [p.1] else []) := by
  unfold matchKeys
  rw [List.filterMap_append]
  by_cases hp : p.2.patch_hash = h
  · simp [hp]
  · simp [hp]

theorem inv_dictGet (bm : List (String × CommitInfo)) (h : String)
    (hne : h ≠ "") :
    dictGet (inverse_map bm) h
      = if matchKeys bm h = [] then none else some (matchKeys bm h) := by
  induction bm using List.reverseRecOn with
  | nil => simp [inverse_map, matchKeys, dictGet]
  | append_singleton bs p ih =>
    rw [inverse_map_append_singleton, matchKeys_append_singleton]
    unfold invStep
    by_cases he : p.2.patch_hash = ""
    · have hph : ¬ p.2.patch_hash = h := by rw [he]; exact fun e => hne e.symm
      rw [if_neg (not_not_intro he), if_neg hph, List.append_nil, ih]
    · rw [if_pos he]
      by_cases hph : p.2.patch_hash = h
      · rw [hph, dictGet_multiAppend_self, ih]
        by_cases hmk : matchKeys bs h = []
        · simp [hmk]
        · simp [hmk]
      · rw [dictGet_multiAppend_ne _ _ (fun e => hph e.symm), ih, if_neg hph,
          List.append_nil]

theorem inv_keys_ne_empty (bm : List (String × CommitInfo)) :
    ∀ x ∈ (inverse_map bm).map Prod.fst, x ≠ "" := by
  induction bm using List.reverseRecOn with
  | nil => simp [inverse_map]
  | append_singleton bs p ih =>
    rw [inverse_map_append_singleton]
    unfold invStep
    by_cases he : p.2.patch_hash = ""
    · rw [if_neg (not_not_intro he)]
      exact ih
    · rw [if_pos he, map_fst_multiAppend]
      by_cases hk : isKey (inverse_map bs) p.2.patch_hash
      · simpa [hk] using ih
      · simp only [hk, if_false]
        intro x hx
        rcases List.mem_append.mp hx with hx | hx
        · exact ih x hx
        · rw [List.mem_singleton.mp hx]
          exact he

theorem inv_keys_nodup (bm : List (String × CommitInfo)) :
    ((inverse_map bm).map Prod.fst).Nodup := by
  induction bm using List.reverseRecOn with
  | nil => simp [inverse_map]
  | append_singleton bs p ih =>
    rw [inverse_map_append_singleton]
    unfold invStep
    by_cases he : p.2.patch_hash = ""
    · rw [if_neg (not_not_intro he)]
      exact ih
    · rw [if_pos he]
      exact nodup_map_fst_multiAppend ih _ _

theorem inv_entry (bm : List (String × CommitInfo)) :
    ∀ p ∈ inverse_map bm, p.1 ≠ "" ∧ p.2 = matchKeys bm p.1 := by
  intro p hp
  have hne : p.1 ≠ "" :=
    inv_keys_ne_empty bm p.1 (List.mem_map_of_mem Prod.fst hp)
  refine ⟨hne, ?_⟩
  obtain ⟨p1, p2⟩ := p
  have hget : dictGet (inverse_map bm) p1 = some p2 :=
    dictGet_eq_some_of_mem (inv_keys_nodup bm) hp
  rw [inv_dictGet bm p1 hne] at hget
  by_cases hmk : matchKeys bm p1 = []
  · rw [if_pos hmk] at hget
    exact absurd hget (by simp)
  · rw [if_neg hmk] at hget
    exact (Option.some.inj hget).symm

theorem mem_matchKeys {bm : List (String × CommitInfo)} {h c : String} :
    c ∈ matchKeys bm h ↔ ∃ i, (c, i) ∈ bm ∧ i.patch_hash = h := by
  unfold matchKeys
  rw [List.mem_filterMap]
  constructor
  · rintro ⟨⟨a1, a2⟩, ham, hf⟩
    by_cases hh : a2.patch_hash = h
    · simp only [hh, if_pos] at hf
      injection hf with hf
      subst hf
      exact ⟨a2, ham, hh⟩
    · simp [hh] at hf
  · rintro ⟨i, hm, hh⟩
    exact ⟨(c, i), hm, by simp [hh]⟩

theorem inv_mem_of_hash (bm : List (String × CommitInfo)) {c : String}
    {i : CommitInfo} (hm : (c, i) ∈ bm) (hne : i.patch_hash ≠ "") :
    (i.patch_hash, matchKeys bm i.patch_hash) ∈ inverse_map bm := by
  have hc : c ∈ matchKeys bm i.patch_hash := mem_matchKeys.mpr ⟨i, hm, rfl⟩
  have hmk : matchKeys bm i.patch_hash ≠ [] := List.ne_nil_of_mem hc
  apply mem_of_dictGet_eq_some
  rw [inv_dictGet bm _ hne, if_neg hmk]

theorem matchKeys_unique {bm : List (String × CommitInfo)}
    (hnd : (bm.map Prod.fst).Nodup) {c h1 h2 : String}
    (m1 : c ∈ matchKeys bm h1) (m2 : c ∈ matchKeys bm h2) : h1 = h2 := by
  obtain ⟨i1, hm1, hh1⟩ := mem_matchKeys.mp m1
  obtain ⟨i2, hm2, hh2⟩ := mem_matchKeys.mp m2
  have e1 := dictGet_eq_some_of_mem hnd hm1
  have e2 := dictGet_eq_some_of_mem hnd hm2
  rw [e1] at e2
  injection e2 with e2
  rw [← hh1, ← hh2, e2]

theorem dup_inner_get (grp : List String) :
    ∀ (l : List String) (d : List (String × List String)) (c : String),
      dictGet (l.foldl (dupGroupStep grp) d) c
        = if c ∈ l then some (grp.filter (fun x => x ≠ c)) else dictGet d c := by
  intro l
  induction l with
  | nil => intro d c; simp
  | cons x rest ih =>
    intro d c
    rw [List.foldl_cons, ih]
    by_cases hc : c ∈ rest
    · simp [hc, List.mem_cons]
    · by_cases hx : c = x
      · subst hx
        simp [hc, dupGroupStep, dictGet_dictInsert_self]
      · simp only [hc, if_false, dupGroupStep]
        rw [dictGet_dictInsert_ne _ _ hx]
        simp [List.mem_cons, hx, hc]

theorem dup_outer_untouched :
    ∀ (entries : List (String × List String))
      (d : List (String × List String)) (c : String),
      (∀ p ∈ entries, 1 < p.2.length → c ∉ p.2) →
      dictGet (entries.foldl dupStep d) c = dictGet d c := by
  intro entries
  induction entries with
  | nil => intro d c _; rfl
  | cons p rest ih =>
    intro d c hcond
    rw [List.foldl_cons, ih _ _ (fun q hq => hcond q (List.mem_cons_of_mem _ hq))]
    unfold dupStep
    by_cases hlen : 1 < p.2.length
    · rw [if_pos hlen, dup_inner_get,
        if_neg (hcond p (List.mem_cons_self _ _) hlen)]
    · rw [if_neg hlen]

theorem dup_outer_found (d : List (String × List String)) (c : String)
    (e1 e2 : List (String × List String)) (h : String) (g : List String)
    (hlen : 1 < g.length) (hcg : c ∈ g)
    (hafter : ∀ p ∈ e2, 1 < p.2.length → c ∉ p.2) :
    dictGet ((e1 ++ (h, g) :: e2).foldl dupStep d) c
      = some (g.filter (fun x => x ≠ c)) := by
  rw [List.foldl_append, List.foldl_cons, dup_outer_untouched e2 _ c hafter]
  unfold dupStep
  rw [if_pos hlen, dup_inner_get, if_pos hcg]

theorem dup_get (bm : List (String × CommitInfo))
    (hnd : (bm.map Prod.fst).Nodup) {c : String} {i : CommitInfo}
    (hm : (c, i) ∈ bm) (hne : i.patch_hash ≠ "") :
    dictGet (build_duplicates (inverse_map bm)) c
      = if 1 < (matchKeys bm i.patch_hash).length
        then some ((matchKeys bm i.patch_hash).filter (fun x => x ≠ c))
        else none := by
  have hcg : c ∈ matchKeys bm i.patch_hash := mem_matchKeys.mpr ⟨i, hm, rfl⟩
  have hdisj : ∀ p ∈ inverse_map bm, c ∈ p.2 → p.1 = i.patch_hash := by
    intro p hp hcp
    have hent := inv_entry bm p hp
    exact matchKeys_unique hnd (hent.2 ▸ hcp) hcg
  by_cases hlen : 1 < (matchKeys bm i.patch_hash).length
  · have hmem : (i.patch_hash, matchKeys bm i.patch_hash) ∈ inverse_map bm :=
      inv_mem_of_hash bm hm hne
    obtain ⟨e1, e2, hsplit⟩ := List.append_of_mem hmem
    have hknd := inv_keys_nodup bm
    rw [hsplit] at hknd
    simp only [List.map_append, List.map_cons] at hknd
    have hmid := List.nodup_middle.mp hknd
    rw [List.nodup_cons] at hmid
    have hafter : ∀ p ∈ e2, 1 < p.2.length → c ∉ p.2 := by
      intro p hp _ hcp
      have hpmem : p ∈ inverse_map bm := by
        rw [hsplit]
        exact List.mem_append_right _ (List.mem_cons_of_mem _ hp)
      have hpk : p.1 = i.patch_hash := hdisj p hpmem hcp
      apply hmid.1
      apply List.mem_append_right
      rw [← hpk]
      exact List.mem_map_of_mem Prod.fst hp
    rw [if_pos hlen]
    unfold build_duplicates
    rw [hsplit]
    exact dup_outer_found [] c e1 e2 i.patch_hash _ hlen hcg hafter
  · rw [if_neg hlen]
    have hcond : ∀ p ∈ inverse_map bm, 1 < p.2.length → c ∉ p.2 := by
      intro p hp hl hcp
      have hpk : p.1 = i.patch_hash := hdisj p hp hcp
      have hent := inv_entry bm p hp
      rw [hent.2, hpk] at hl
      exact hlen hl
    unfold build_duplicates
    rw [dup_outer_untouched _ _ _ hcond]
    rfl

end Duplicates

/-- C5: duplicate symmetry — whenever `c2` appears in the duplicate list of
`c1` (built over a branch map with distinct commit keys), `c1` appears in
the duplicate list of `c2`, and no commit appears in its own duplicate
list. -/
theorem c5_duplicate_symmetry (bm : List (String × CommitInfo))
    (hnd : (bm.map Prod.fst).Nodup) (c1 c2 : String) (l1 : List String)
    (h1 : dictGet (build_duplicates (inverse_map bm)) c1 = some l1)
    (h2 : c2 ∈ l1) :
    c1 ∉ l1
      ∧ ∃ l2, dictGet (build_duplicates (inverse_map bm)) c2 = some l2
          ∧ c1 ∈ l2 := by
  by_cases hex : ∃ p ∈ inverse_map bm, 1 < p.2.length ∧ c1 ∈ p.2
  · obtain ⟨p, hp, hlen, hcp⟩ := hex
    have hent := inv_entry bm p hp
    have hc1 : c1 ∈ matchKeys bm p.1 := hent.2 ▸ hcp
    obtain ⟨i1, hm1, hh1⟩ := mem_matchKeys.mp hc1
    have hne1 : i1.patch_hash ≠ "" := by rw [hh1]; exact hent.1
    have hget1 := dup_get bm hnd hm1 hne1
    rw [h1] at hget1
    have hlen1 : 1 < (matchKeys bm i1.patch_hash).length := by
      rw [hh1, ← hent.2]
      exact hlen
    rw [if_pos hlen1] at hget1
    have hl1 : l1 = (matchKeys bm i1.patch_hash).filter (fun x => x ≠ c1) :=
      Option.some.inj hget1
    have hc2G : c2 ∈ matchKeys bm i1.patch_hash ∧ c2 ≠ c1 := by
      rw [hl1] at h2
      have := List.mem_filter.mp h2
      exact ⟨this.1, by simpa using this.2⟩
    obtain ⟨i2, hm2, hh2⟩ := mem_matchKeys.mp hc2G.1
    have hne2 : i2.patch_hash ≠ "" := by rw [hh2]; exact hne1
    have hG2 : matchKeys bm i2.patch_hash = matchKeys bm i1.patch_hash := by
      rw [hh2]
    constructor
    · rw [hl1]
      intro hc
      have := List.mem_filter.mp hc
      simp at this
    · refine ⟨(matchKeys bm i1.patch_hash).filter (fun x => x ≠ c2), ?_, ?_⟩
      · rw [dup_get bm hnd hm2 hne2, hG2, if_pos hlen1]
      · refine List.mem_filter.mpr ⟨?_, ?_⟩
        · rw [hh1]
          exact hc1
        · simpa using Ne.symm hc2G.2
  · exfalso
    have hcond : ∀ p ∈ inverse_map bm, 1 < p.2.length → c1 ∉ p.2 := by
      intro p hp hl hc
      exact hex ⟨p, hp, hl, hc⟩
    unfold build_duplicates at h1
    rw [dup_outer_untouched _ _ _ hcond] at h1
    exact absurd h1 (by simp [dictGet])

/-- C5, witness: two branch commits sharing fingerprint "h". -/
theorem c5_duplicate_symmetry_witness :
    ("c1" : String) ∉ (["c2"] : List String)
      ∧ ∃ l2, dictGet (build_duplicates (inverse_map
          [(("c1" : String), infoWith "h" ""), (("c2" : String), infoWith "h" "")]))
          ("c2") = some l2 ∧ ("c1" : String) ∈ l2 :=
  c5_duplicate_symmetry
    [(("c1" : String), infoWith "h" ""), (("c2" : String), infoWith "h" "")]
    (by decide) ("c1") ("c2") (["c2"]) (by decide) (by decide)

section Counters

theorem isKey_append {α : Type} (d1 d2 : List (String × α)) (k : String) :
    isKey (d1 ++ d2) k = (isKey d1 k || isKey d2 k) := by
  induction d1 with
  | nil => simp [isKey]
  | cons p t ih => simp [isKey, ih, Bool.or_assoc]

theorem build_patch_id_map_general :
    ∀ (l d : List (String × CommitInfo)),
      (∀ p ∈ l, isKey d p.1 = false) → (l.map Prod.fst).Nodup →
      l.foldl insStep d = d ++ l := by
  intro l
  induction l with
  | nil => intro d _ _; simp
  | cons p rest ih =>
    intro d hkeys hnd
    simp only [List.map_cons, List.nodup_cons] at hnd
    rw [List.foldl_cons]
    have h1 : insStep d p = d ++ [p] := by
      unfold insStep
      rw [dictInsert_eq_append _ (hkeys p (List.mem_cons_self _ _))]
    rw [h1, ih (d ++ [p]) ?hk hnd.2]
    · simp
    case hk =>
      intro q hq
      rw [isKey_append]
      have h2 : isKey d q.1 = false := hkeys q (List.mem_cons_of_mem _ hq)
      have h3 : ¬ p.1 = q.1 := by
        intro e
        exact hnd.1 (by rw [e]; exact List.mem_map_of_mem Prod.fst hq)
      simp [h2, isKey, h3]

theorem build_patch_id_map_eq {arr : List (String × CommitInfo)}
    (hnd : (arr.map Prod.fst).Nodup) : build_patch_id_map arr = arr := by
  unfold build_patch_id_map
  rw [build_patch_id_map_general arr [] (fun p _ => rfl) hnd]
  simp

theorem countP_add_le {α : Type} (p q : α → Bool)
    (hpq : ∀ a, p a = true → q a = false) :
    ∀ l : List α, l.countP p + l.countP q ≤ l.length := by
  intro l
  induction l with
  | nil => simp
  | cons a t ih =>
    rw [List.countP_cons, List.countP_cons, List.length_cons]
    by_cases hp : p a = true
    · have hq := hpq a hp
      simp only [hp, hq]
      simp
      omega
    · rw [Bool.not_eq_true] at hp
      by_cases hq : q a = true
      · simp only [hp, hq]
        simp
        omega
      · rw [Bool.not_eq_true] at hq
        simp only [hp, hq]
        simp
        omega

theorem fae_counts (uinv : List (String × List String)) :
    ∀ (l : List (String × CommitInfo)) (acc : Nat × List (String × List String)),
      (l.map Prod.fst).Nodup → (∀ p ∈ l, isKey acc.2 p.1 = false) →
      (l.foldl (faeStep uinv) acc).1
          = acc.1 + l.countP (fun p => p.2.patch_hash == "")
        ∧ (l.foldl (faeStep uinv) acc).2.length
          = acc.2.length
            + l.countP (fun p =>
                !(p.2.patch_hash == "") && isKey uinv p.2.patch_hash) := by
  intro l
  induction l with
  | nil => intro acc _ _; simp
  | cons p rest ih =>
    intro acc hnd hkeys
    simp only [List.map_cons, List.nodup_cons] at hnd
    rw [List.foldl_cons, List.countP_cons, List.countP_cons]
    obtain ⟨p1, p2⟩ := p
    by_cases he : p2.patch_hash = ""
    · have hstep : faeStep uinv acc (p1, p2) = (acc.1 + 1, acc.2) := by
        rw [faeStep_eq, if_pos he]
      rw [hstep]
      obtain ⟨ih1, ih2⟩ := ih (acc.1 + 1, acc.2) hnd.2
        (fun q hq => hkeys q (List.mem_cons_of_mem _ hq))
      constructor
      · rw [ih1]
        simp only [he, beq_self_eq_true, if_true]
        omega
      · rw [ih2]
        simp [he]
    · cases hg : dictGet uinv p2.patch_hash with
      | none =>
        have hstep : faeStep uinv acc (p1, p2) = acc := by
          rw [faeStep_eq, if_neg he, hg]
        rw [hstep]
        obtain ⟨ih1, ih2⟩ := ih acc hnd.2
          (fun q hq => hkeys q (List.mem_cons_of_mem _ hq))
        have hik : isKey uinv p2.patch_hash = false := by
          rw [isKey_eq_isSome_dictGet, hg]
          rfl
        have hbe : (p2.patch_hash == "") = false := by
          simp [he]
        constructor
        · rw [ih1]
          simp [hbe]
        · rw [ih2]
          simp [hbe, hik]
      | some lv =>
        have hstep : faeStep uinv acc (p1, p2) = (acc.1, dictInsert acc.2 p1 lv) := by
          rw [faeStep_eq, if_neg he, hg]
        have hk1 : isKey acc.2 p1 = false := hkeys (p1, p2) (List.mem_cons_self _ _)
        rw [hstep]
        obtain ⟨ih1, ih2⟩ := ih (acc.1, dictInsert acc.2 p1 lv) hnd.2
          (fun q hq => by
            rw [isKey_dictInsert]
            have h1 : isKey acc.2 q.1 = false :=
              hkeys q (List.mem_cons_of_mem _ hq)
            have h2 : ¬ q.1 = p1 := by
              intro e
              exact hnd.1 (by rw [← e]; exact List.mem_map.mpr ⟨q, hq, rfl⟩)
            simp [h1, h2])
        have hik : isKey uinv p2.patch_hash = true := by
          rw [isKey_eq_isSome_dictGet, hg]
          rfl
        have hbe : (p2.patch_hash == "") = false := by
          simp [he]
        constructor
        · rw [ih1]
          simp [hbe]
        · rw [ih2, length_dictInsert_of_isKey_false _ hk1]
          simp only [hbe, Bool.not_false, hik, Bool.and_self, if_true]
          omega

theorem updateReverts_hashProj (m : List (String × CommitInfo))
    (k full : String) :
    (updateReverts m k full).map hashProj = m.map hashProj := by
  unfold updateReverts
  rw [List.map_map]
  apply List.map_congr_left
  intro p _
  by_cases hp : p.1 = k
  · simp [hashProj, hp]
  · simp [hashProj, hp]

theorem revertsStep_hashProj (fb fu : List (String × CommitInfo))
    (acc : List (String × String) × List String × List (String × CommitInfo))
    (p : String × CommitInfo) :
    ((revertsStep fb fu acc p).2.2).map hashProj = (acc.2.2).map hashProj := by
  obtain ⟨p1, p2⟩ := p
  by_cases he : p2.reverts_commit = ""
  · rw [revertsStep_eq, if_neg (not_not_intro he)]
  · rw [revertsStep_eq, if_pos he]
    cases hsb : search_full_commit_hash p2.reverts_commit fb with
    | some full => simp only [hsb]; exact updateReverts_hashProj _ _ _
    | none =>
      cases hsu : search_full_commit_hash p2.reverts_commit fu with
      | some full => simp only [hsb, hsu]; exact updateReverts_hashProj _ _ _
      | none => simp only [hsb, hsu]

theorem build_reverts_hashProj (fb fu : List (String × CommitInfo)) :
    ((build_reverts fb fu).2.2).map hashProj = fb.map hashProj := by
  have haux : ∀ (l : List (String × CommitInfo))
      (acc : List (String × String) × List String × List (String × CommitInfo)),
      ((l.foldl (revertsStep fb fu) acc).2.2).map hashProj
        = (acc.2.2).map hashProj := by
    intro l
    induction l with
    | nil => intro acc; rfl
    | cons p rest ih =>
      intro acc
      rw [List.foldl_cons, ih, revertsStep_hashProj]
  exact haux fb ([], [], fb)

theorem map_fst_hashProj (l : List (String × CommitInfo)) :
    (l.map hashProj).map Prod.fst = l.map Prod.fst := by
  rw [List.map_map]
  rfl

theorem build_reverts_keys (fb fu : List (String × CommitInfo)) :
    ((build_reverts fb fu).2.2).map Prod.fst = fb.map Prod.fst := by
  rw [← map_fst_hashProj, build_reverts_hashProj, map_fst_hashProj]

end Counters

/-- C6: the reported effective count equals the total branch-only count
minus the found-upstream count minus the empty-commit count (the code
computes it exactly so), and the empty count plus the size of the
found-upstream map never exceeds the total, given that the fetched results
cover exactly the branch commit list (a permutation) and that list has no
duplicate refs. -/
theorem c6_counter_identity (branch_list upstream_list : List String)
    (b_arr u_arr : List (String × CommitInfo))
    (hperm : (b_arr.map Prod.fst).Perm branch_list)
    (hnd : branch_list.Nodup) :
    (main_core branch_list upstream_list b_arr u_arr).effective
      = ((main_core branch_list upstream_list b_arr u_arr).total : Int)
        - ((main_core branch_list upstream_list b_arr u_arr).found_count : Int)
        - ((main_core branch_list upstream_list b_arr u_arr).empty_commits : Int)
    ∧ (main_core branch_list upstream_list b_arr u_arr).empty_commits
        + (main_core branch_list upstream_list b_arr u_arr).found_count
      ≤ (main_core branch_list upstream_list b_arr u_arr).total := by
  refine ⟨rfl, ?_⟩
  have hndb : (b_arr.map Prod.fst).Nodup := (hperm.nodup_iff).mpr hnd
  show (found_and_empty
      (build_reverts (build_patch_id_map b_arr) (build_patch_id_map u_arr)).2.2
      (inverse_map (build_patch_id_map u_arr))).1
    + (found_and_empty
      (build_reverts (build_patch_id_map b_arr) (build_patch_id_map u_arr)).2.2
      (inverse_map (build_patch_id_map u_arr))).2.length
    ≤ branch_list.length
  rw [build_patch_id_map_eq hndb]
  have hkeys2 : ((build_reverts b_arr (build_patch_id_map u_arr)).2.2).map Prod.fst
      = b_arr.map Prod.fst := build_reverts_keys _ _
  have hnd2 : (((build_reverts b_arr (build_patch_id_map u_arr)).2.2).map Prod.fst).Nodup := by
    rw [hkeys2]
    exact hndb
  obtain ⟨h1, h2⟩ := fae_counts (inverse_map (build_patch_id_map u_arr))
    ((build_reverts b_arr (build_patch_id_map u_arr)).2.2) (0, []) hnd2
    (fun p _ => rfl)
  unfold found_and_empty
  rw [h1, h2]
  simp only [Nat.zero_add, List.length_nil]
  have hEq : ∀ (q : String × String → Bool) (m : List (String × CommitInfo)),
      m.countP (fun p => q (hashProj p)) = (m.map hashProj).countP q := by
    intro q m
    rw [List.countP_map]
    rfl
  have htrans : ∀ (q : String × String → Bool),
      ((build_reverts b_arr (build_patch_id_map u_arr)).2.2).countP
          (fun p => q (hashProj p))
        = b_arr.countP (fun p => q (hashProj p)) := by
    intro q
    rw [hEq q, build_reverts_hashProj, ← hEq q]
  have hE := htrans (fun q => q.2 == "")
  have hF := htrans (fun q =>
    !(q.2 == "") && isKey (inverse_map (build_patch_id_map u_arr)) q.2)
  rw [show (fun p : String × CommitInfo => p.2.patch_hash == "")
      = (fun p : String × CommitInfo => (hashProj p).2 == "") from rfl]
  rw [show (fun p : String × CommitInfo =>
        !(p.2.patch_hash == "")
          && isKey (inverse_map (build_patch_id_map u_arr)) p.2.patch_hash)
      = (fun p : String × CommitInfo =>
        !((hashProj p).2 == "")
          && isKey (inverse_map (build_patch_id_map u_arr)) (hashProj p).2)
      from rfl]
  rw [hE, hF]
  have hlen : b_arr.length = branch_list.length := by
    have := hperm.length_eq
    rwa [List.length_map] at this
  rw [← hlen]
  exact countP_add_le _ _ (fun a ha => by simp [ha]) b_arr

/-- C6, witness: a single-commit branch with empty fingerprint. -/
theorem c6_counter_identity_witness :
    (main_core ["c1"] [] [(("c1" : String), infoWith "" "")] []).effective
      = ((main_core ["c1"] [] [(("c1" : String), infoWith "" "")] []).total : Int)
        - ((main_core ["c1"] [] [(("c1" : String), infoWith "" "")] []).found_count : Int)
        - ((main_core ["c1"] [] [(("c1" : String), infoWith "" "")] []).empty_commits : Int)
    ∧ (main_core ["c1"] [] [(("c1" : String), infoWith "" "")] []).empty_commits
        + (main_core ["c1"] [] [(("c1" : String), infoWith "" "")] []).found_count
      ≤ (main_core ["c1"] [] [(("c1" : String), infoWith "" "")] []).total :=
  c6_counter_identity ["c1"] [] [(("c1" : String), infoWith "" "")] []
    (by decide) (by decide)

section OrderInvariance

theorem bool_eq_of_iff {x y : Bool} (h : x = true ↔ y = true) : x = y := by
  cases x <;> cases y <;> simp_all

theorem countP_ext {α : Type} {p q : α → Bool} :
    ∀ {l : List α}, (∀ a ∈ l, p a = q a) → l.countP p = l.countP q := by
  intro l
  induction l with
  | nil => intro _; rfl
  | cons a t ih =>
    intro h
    rw [List.countP_cons, List.countP_cons, h a (List.mem_cons_self _ _),
      ih (fun b hb => h b (List.mem_cons_of_mem _ hb))]

theorem isKey_inverse_map_iff {u : List (String × CommitInfo)} {h : String} :
    isKey (inverse_map u) h = true
      ↔ h ≠ "" ∧ ∃ p ∈ u, p.2.patch_hash = h := by
  constructor
  · intro hk
    have hne : h ≠ "" := inv_keys_ne_empty u h (isKey_eq_true_iff.mp hk)
    refine ⟨hne, ?_⟩
    rw [isKey_eq_isSome_dictGet, inv_dictGet u h hne] at hk
    by_cases hmk : matchKeys u h = []
    · simp [hmk] at hk
    · obtain ⟨c, hc⟩ := List.exists_mem_of_ne_nil _ hmk
      obtain ⟨i, hm, hh⟩ := mem_matchKeys.mp hc
      exact ⟨(c, i), hm, hh⟩
  · rintro ⟨hne, ⟨p, hp, hh⟩⟩
    obtain ⟨p1, p2⟩ := p
    rw [isKey_eq_isSome_dictGet, inv_dictGet u h hne]
    have hc : p1 ∈ matchKeys u h := mem_matchKeys.mpr ⟨p2, hp, hh⟩
    simp [List.ne_nil_of_mem hc]

theorem counts_main (bl ul : List String) (a u : List (String × CommitInfo))
    (hnda : (a.map Prod.fst).Nodup) :
    (main_core bl ul a u).empty_commits
        = a.countP (fun p => (hashProj p).2 == "")
    ∧ (main_core bl ul a u).found_count
        = a.countP (fun p => !((hashProj p).2 == "")
            && isKey (inverse_map (build_patch_id_map u)) (hashProj p).2) := by
  have hkeys2 : ((build_reverts a (build_patch_id_map u)).2.2).map Prod.fst
      = a.map Prod.fst := build_reverts_keys _ _
  have hnd2 : (((build_reverts a (build_patch_id_map u)).2.2).map Prod.fst).Nodup := by
    rw [hkeys2]
    exact hnda
  obtain ⟨h1, h2⟩ := fae_counts (inverse_map (build_patch_id_map u))
    ((build_reverts a (build_patch_id_map u)).2.2) (0, []) hnd2
    (fun p _ => rfl)
  have hEq : ∀ (q : String × String → Bool) (m : List (String × CommitInfo)),
      m.countP (fun p => q (hashProj p)) = (m.map hashProj).countP q := by
    intro q m
    rw [List.countP_map]
    rfl
  have htrans : ∀ (q : String × String → Bool),
      ((build_reverts a (build_patch_id_map u)).2.2).countP
          (fun p => q (hashProj p))
        = a.countP (fun p => q (hashProj p)) := by
    intro q
    rw [hEq q, build_reverts_hashProj, ← hEq q]
  constructor
  · show (found_and_empty (build_reverts (build_patch_id_map a)
        (build_patch_id_map u)).2.2 (inverse_map (build_patch_id_map u))).1 = _
    rw [build_patch_id_map_eq hnda]
    unfold found_and_empty
    rw [h1]
    rw [show (fun p : String × CommitInfo => p.2.patch_hash == "")
        = (fun p : String × CommitInfo => (hashProj p).2 == "") from rfl]
    rw [htrans (fun q => q.2 == "")]
    simp
  · show (found_and_empty (build_reverts (build_patch_id_map a)
        (build_patch_id_map u)).2.2 (inverse_map (build_patch_id_map u))).2.length = _
    rw [build_patch_id_map_eq hnda]
    unfold found_and_empty
    rw [h2]
    rw [show (fun p : String × CommitInfo =>
          !(p.2.patch_hash == "")
            && isKey (inverse_map (build_patch_id_map u)) p.2.patch_hash)
        = (fun p : String × CommitInfo =>
          !((hashProj p).2 == "")
            && isKey (inverse_map (build_patch_id_map u)) (hashProj p).2)
        from rfl]
    rw [htrans (fun q => !(q.2 == "")
      && isKey (inverse_map (build_patch_id_map u)) q.2)]
    simp

end OrderInvariance

/-- C9, amended: the summary counters — total, empty-commit count,
found-upstream count, and the effective count — are identical across two
runs over identical gateway outputs, whatever completion orders the two
runs' parallel fetches take (any two permutations of the same fetched
results); the counterexample shows the detail lines themselves, i.e. the
ordering of refs inside annotation lists, are not. -/
theorem c9_counters_order_invariant (bl ul : List String)
    (a1 a2 u1 u2 : List (String × CommitInfo))
    (hA : a1.Perm a2) (hU : u1.Perm u2)
    (hnda : (a1.map Prod.fst).Nodup) (hndu : (u1.map Prod.fst).Nodup) :
    (main_core bl ul a1 u1).total = (main_core bl ul a2 u2).total
    ∧ (main_core bl ul a1 u1).empty_commits
        = (main_core bl ul a2 u2).empty_commits
    ∧ (main_core bl ul a1 u1).found_count
        = (main_core bl ul a2 u2).found_count
    ∧ (main_core bl ul a1 u1).effective
        = (main_core bl ul a2 u2).effective := by
  have hnda2 : (a2.map Prod.fst).Nodup := ((hA.map Prod.fst).nodup_iff).mp hnda
  have hndu2 : (u2.map Prod.fst).Nodup := ((hU.map Prod.fst).nodup_iff).mp hndu
  obtain ⟨hE1, hF1⟩ := counts_main bl ul a1 u1 hnda
  obtain ⟨hE2, hF2⟩ := counts_main bl ul a2 u2 hnda2
  have hKey : ∀ h : String,
      isKey (inverse_map (build_patch_id_map u1)) h
        = isKey (inverse_map (build_patch_id_map u2)) h := by
    intro h
    rw [build_patch_id_map_eq hndu, build_patch_id_map_eq hndu2]
    apply bool_eq_of_iff
    rw [isKey_inverse_map_iff, isKey_inverse_map_iff]
    constructor
    · rintro ⟨hne, p, hp, hh⟩
      exact ⟨hne, p, hU.mem_iff.mp hp, hh⟩
    · rintro ⟨hne, p, hp, hh⟩
      exact ⟨hne, p, hU.mem_iff.mpr hp, hh⟩
  have hEmpty : (main_core bl ul a1 u1).empty_commits
      = (main_core bl ul a2 u2).empty_commits := by
    rw [hE1, hE2]
    exact hA.countP_eq _
  have hFound : (main_core bl ul a1 u1).found_count
      = (main_core bl ul a2 u2).found_count := by
    rw [hF1, hF2]
    rw [countP_ext (fun p _ => by rw [hKey (hashProj p).2])]
    exact hA.countP_eq _
  refine ⟨rfl, hEmpty, hFound, ?_⟩
  have hEf : ∀ (a u : List (String × CommitInfo)),
      (main_core bl ul a u).effective
        = ((main_core bl ul a u).total : Int)
          - ((main_core bl ul a u).found_count : Int)
          - ((main_core bl ul a u).empty_commits : Int) := fun _ _ => rfl
  rw [hEf a1 u1, hEf a2 u2, hEmpty, hFound]
  rfl

/-- C9, amended claim witness: two completion orders of the same two fetched
results give equal counters. -/
theorem c9_counters_order_invariant_witness :
    (main_core ["c1", "c2"] [] [(("c1" : String), infoWith "F" ""),
        (("c2" : String), infoWith "F" "")] []).total
      = (main_core ["c1", "c2"] [] [(("c2" : String), infoWith "F" ""),
        (("c1" : String), infoWith "F" "")] []).total
    ∧ (main_core ["c1", "c2"] [] [(("c1" : String), infoWith "F" ""),
        (("c2" : String), infoWith "F" "")] []).empty_commits
      = (main_core ["c1", "c2"] [] [(("c2" : String), infoWith "F" ""),
        (("c1" : String), infoWith "F" "")] []).empty_commits
    ∧ (main_core ["c1", "c2"] [] [(("c1" : String), infoWith "F" ""),
        (("c2" : String), infoWith "F" "")] []).found_count
      = (main_core ["c1", "c2"] [] [(("c2" : String), infoWith "F" ""),
        (("c1" : String), infoWith "F" "")] []).found_count
    ∧ (main_core ["c1", "c2"] [] [(("c1" : String), infoWith "F" ""),
        (("c2" : String), infoWith "F" "")] []).effective
      = (main_core ["c1", "c2"] [] [(("c2" : String), infoWith "F" ""),
        (("c1" : String), infoWith "F" "")] []).effective :=
  c9_counters_order_invariant ["c1", "c2"] []
    [(("c1" : String), infoWith "F" ""), (("c2" : String), infoWith "F" "")]
    [(("c2" : String), infoWith "F" ""), (("c1" : String), infoWith "F" "")]
    [] [] (by decide) (.refl []) (by decide) (by decide)

/-- C1: on a branch whose single commit has the empty fingerprint, the run
counts it in the empty-commit counter (`empty_commits = 1`), the commit is a
key of neither the duplicate map nor the found-upstream map
(`found_count = 0`, the duplicate map is empty) — but, contrary to the claim,
its report line is the bare four-field line with no "empty commit"
annotation: the guard at line 177, `branch_patch_id_map[commit] is None`,
compares a `CommitInfo` value against `None` and is never true. -/
theorem c1_empty_commit_line_eval :
    main_core ["c1"] [] [(("c1" : String), infoWith "" "")] []
      = { total := 1, empty_commits := 1, found_count := 0,
          reverted_count := 0, reverts_upstream_count := 0, effective := 0,
          report := ["c1\tdt\tau\tms"] }
    ∧ build_duplicates (inverse_map [(("c1" : String), infoWith "" "")]) = []
    ∧ (found_and_empty [(("c1" : String), infoWith "" "")] []).2 = [] := by
  decide

/-- C2, counterexample: metadata extraction is not total — on the empty patch
text (a header shorter than expected) `lines[1]` raises IndexError, embedded
as `none`, instead of degrading to empty-string fields. -/
theorem c2_short_patch_fails : get_commit_patch_id [] [] = none := by decide

/-- C2, amended: metadata extraction raises IndexError on patch texts with
fewer than four non-empty lines (and on a non-empty all-whitespace patch-id
output); on patch texts with at least four non-empty lines whose patch-id
output is empty or contains a token, it never fails — decoding is lenient
and absent fields (such as a missing revert marker) degrade to empty
strings. -/
theorem c2_parse_total_on_wellformed (so pid : List Char)
    (h4 : 4 ≤ (nonEmptyLines so).length)
    (hp : pid = [] ∨ splitWs pid ≠ []) :
    (get_commit_patch_id so pid).isSome = true := by
  unfold get_commit_patch_id
  obtain ⟨a, ha⟩ : ∃ x, (nonEmptyLines so)[1]? = some x :=
    ⟨_, List.getElem?_eq_getElem (by omega)⟩
  obtain ⟨b, hb⟩ : ∃ x, (nonEmptyLines so)[2]? = some x :=
    ⟨_, List.getElem?_eq_getElem (by omega)⟩
  obtain ⟨c, hc⟩ : ∃ x, (nonEmptyLines so)[3]? = some x :=
    ⟨_, List.getElem?_eq_getElem (by omega)⟩
  rw [ha, hb, hc]
  rcases hp with rfl | hp
  · simp [extract_patch_id]
  · unfold extract_patch_id
    by_cases hraw : pid = []
    · simp [hraw]
    · rw [if_neg hraw]
      obtain ⟨t, ts, hts⟩ := List.exists_cons_of_ne_nil hp
      rw [hts]
      simp

/-- C2, amended claim witness: a four-line patch with empty patch-id
output parses successfully. -/
theorem c2_parse_total_witness :
    (get_commit_patch_id (("commit c\nAuthor: a\nDate: d\nmsg").toList)
      []).isSome = true :=
  c2_parse_total_on_wellformed (("commit c\nAuthor: a\nDate: d\nmsg").toList)
    [] (by decide) (Or.inl rfl)

/-- C10: whenever extraction succeeds, the reported subject is exactly the
fourth non-empty whitespace-stripped line of the patch text — in
particular, for a commit with an empty message it is the first line of the
diff body, as the witness shows. -/
theorem c10_subject_fourth_line (so pid : List Char) (info : CommitInfo)
    (h : get_commit_patch_id so pid = some info) :
    ∃ l, (nonEmptyLines so)[3]? = some l
      ∧ info.message_first_line = String.mk l := by
  unfold get_commit_patch_id at h
  cases h1 : (nonEmptyLines so)[1]? with
  | none => rw [h1] at h; simp at h
  | some al =>
    cases h2 : (nonEmptyLines so)[2]? with
    | none => rw [h1, h2] at h; simp at h
    | some dl =>
      cases h3 : (nonEmptyLines so)[3]? with
      | none => rw [h1, h2, h3] at h; simp at h
      | some ml =>
        rw [h1, h2, h3] at h
        cases hp : extract_patch_id pid with
        | none => rw [hp] at h; simp at h
        | some pt =>
          rw [hp] at h
          simp only [Option.some.injEq] at h
          exact ⟨ml, rfl, by rw [← h]⟩

/-- C10, witness: a patch whose commit message is empty — the fourth
non-empty line is the first diff line, and it becomes the subject. -/
theorem c10_subject_fourth_line_witness :
    ∃ l, (nonEmptyLines
        (("commit c\nAuthor: x\nDate: d\ndiff --git a b").toList))[3]?
        = some l
      ∧ ({ author := "Author: x", date := "d",
           message_first_line := "diff --git a b", patch_hash := "",
           reverts_commit := "" } : CommitInfo).message_first_line
        = String.mk l :=
  c10_subject_fourth_line
    (("commit c\nAuthor: x\nDate: d\ndiff --git a b").toList) []
    { author := "Author: x", date := "d",
      message_first_line := "diff --git a b", patch_hash := "",
      reverts_commit := "" }
    (by decide)

/-- C7, counterexample: the claim's case-insensitive matching of "reverts"
fails — only the first letter is case-variant (`[Rr]everts`): the line
"REVERTS abc123" yields no token while "Reverts abc123" yields "abc123". -/
theorem c7_case_insensitive_refuted :
    extract_reverts [(("REVERTS abc123").toList)] = []
    ∧ extract_reverts [(("Reverts abc123").toList)] = ("abc123").toList := by
  decide

/-- C7, amended: the extractor scans every line of the patch text and
retains exactly the last line's match (the token of the last line matching
`[Rr]everts (?:commit )?(\w+)`, the empty string when none matches), with
the optional literal "commit " recognised — but "reverts" is matched with
only its first letter case-insensitive: a match can never start at a
character other than `R` or `r`. -/
theorem c7_last_match_scan (lines : List (List Char)) (c : Char)
    (rest : List Char) (h1 : c ≠ 'R') (h2 : c ≠ 'r') :
    extract_reverts lines
        = ((lines.filterMap revertsSearch).getLast?).getD []
      ∧ revertsSearch (c :: rest) = revertsSearch rest := by
  constructor
  · suffices haux : ∀ (ls : List (List Char)) (acc : List Char),
        ls.foldl revertsLineStep acc
          = ((ls.filterMap revertsSearch).getLast?).getD acc by
      exact haux lines []
    intro ls
    induction ls with
    | nil => intro acc; rfl
    | cons l t ih =>
      intro acc
      rw [List.foldl_cons, ih]
      cases hs : revertsSearch l with
      | none => simp only [List.filterMap_cons, hs, revertsLineStep]
      | some w =>
        simp only [List.filterMap_cons, hs, revertsLineStep]
        cases hft : t.filterMap revertsSearch with
        | nil => simp
        | cons x xs =>
          rw [List.getLast?_cons_cons]
          cases hgl : (x :: xs).getLast? with
          | none => simp at hgl
          | some y => simp
  · rw [revertsSearch]
    rw [if_neg (fun hc => hc.1.elim (fun e => h1 e) (fun e => h2 e))]

/-- C7, amended claim witness: the last matching line wins over an earlier
one, and a match cannot start at `X`. -/
theorem c7_last_match_scan_witness :
    extract_reverts [(("Reverts aaa").toList), (("reverts bbb").toList)]
        = ((([(("Reverts aaa").toList), (("reverts bbb").toList)].filterMap
            revertsSearch).getLast?).getD [])
      ∧ revertsSearch ('X' :: (("everts abc").toList))
        = revertsSearch (("everts abc").toList) :=
  c7_last_match_scan [(("Reverts aaa").toList), (("reverts bbb").toList)]
    'X' (("everts abc").toList) (by decide) (by decide)

/-- C8, counterexample: `strip(b'Date: ')`/`strip(b' +0000')` strip character
sets, not the literal affixes, so the date line
"Date: Wed Jan 1 10:00:00 2020 +0000" loses the final `0` of the year 2020;
the rest of the date text is not left unchanged as claimed. -/
theorem c8_exact_affix_refuted :
    extract_date (("Date: Wed Jan 1 10:00:00 2020 +0000").toList)
      = ("Wed Jan 1 10:00:00 202").toList
    ∧ extract_date (("Date: Wed Jan 1 10:00:00 2020 +0000").toList)
      ≠ ("Wed Jan 1 10:00:00 2020").toList := by
  decide

section DateStrip

theorem dropWhile_append_of_all {p : Char → Bool} :
    ∀ {l1 l2 : List Char}, (∀ x ∈ l1, p x = true) →
      List.dropWhile p (l1 ++ l2) = List.dropWhile p l2 := by
  intro l1
  induction l1 with
  | nil => intro l2 _; rfl
  | cons a t ih =>
    intro l2 h
    rw [List.cons_append,
      List.dropWhile_cons_of_pos (h a (List.mem_cons_self _ _))]
    exact ih (fun x hx => h x (List.mem_cons_of_mem _ hx))

theorem stripSet_eq_of_ends (set : List Char) (a z : Char)
    (l1 l2 mid : List Char)
    (h1 : ∀ x ∈ l1, set.contains x = true)
    (h2 : ∀ x ∈ l2, set.contains x = true)
    (ha : set.contains a = false) (hz : set.contains z = false) :
    stripSet set (l1 ++ (a :: (mid ++ [z])) ++ l2) = a :: (mid ++ [z]) := by
  unfold stripSet
  rw [List.append_assoc, dropWhile_append_of_all h1, List.cons_append,
    List.dropWhile_cons_of_neg
      (by intro hpa; rw [ha] at hpa; exact Bool.false_ne_true hpa)]
  have hrev : (a :: ((mid ++ [z]) ++ l2)).reverse
      = l2.reverse ++ (z :: (mid.reverse ++ [a])) := by
    simp
  rw [hrev,
    dropWhile_append_of_all (fun x hx => h2 x (List.mem_reverse.mp hx)),
    List.dropWhile_cons_of_neg
      (by intro hpz; rw [hz] at hpz; exact Bool.false_ne_true hpz)]
  simp

theorem stripSet_id (set : List Char) (a z : Char) (mid : List Char)
    (ha : set.contains a = false) (hz : set.contains z = false) :
    stripSet set (a :: (mid ++ [z])) = a :: (mid ++ [z]) := by
  have h := stripSet_eq_of_ends set a z [] [] mid
    (fun x hx => absurd hx (List.not_mem_nil x))
    (fun x hx => absurd hx (List.not_mem_nil x)) ha hz
  rw [List.append_nil, List.nil_append] at h
  exact h

end DateStrip

/-- C8, amended: the date transformation strips the character sets
`{D,a,t,e,:,space}` and then `{space,+,0}` from both ends (Python
`bytes.strip` set semantics); it removes exactly the leading "Date: " label
and the trailing " +0000" offset, leaving the date text unchanged, provided
that text starts with a character in neither set and ends with a character
outside `{space,+,0}` — otherwise date text itself is eaten, as the
counterexample (a year ending in 0) shows. -/
theorem c8_charset_strip (a : Char) (mid : List Char) (z : Char)
    (ha1 : dateLabelChars.contains a = false)
    (ha2 : utcSuffixChars.contains a = false)
    (hz : utcSuffixChars.contains z = false) :
    extract_date ((("Date: ").toList)
        ++ ((a :: (mid ++ [z])) ++ ((" +0000").toList)))
      = a :: (mid ++ [z]) := by
  unfold extract_date
  have h0 : stripWs ((("Date: ").toList)
      ++ ((a :: (mid ++ [z])) ++ ((" +0000").toList)))
      = (("Date: ").toList) ++ ((a :: (mid ++ [z])) ++ ((" +0000").toList)) := by
    have e0 : (("Date: ").toList) ++ ((a :: (mid ++ [z])) ++ ((" +0000").toList))
        = 'D' :: (((("ate: ").toList) ++ ((a :: (mid ++ [z]))
            ++ ((" +000").toList))) ++ ['0']) := by
      simp
    unfold stripWs
    rw [e0, stripSet_id wsChars 'D' '0' _ (by decide) (by decide), ← e0]
  rw [h0]
  have h1 := stripSet_eq_of_ends dateLabelChars a '0' (("Date: ").toList) []
    (mid ++ ([z] ++ ((" +000").toList))) (by decide)
    (fun x hx => absurd hx (List.not_mem_nil x)) ha1 (by decide)
  rw [List.append_nil] at h1
  have e1 : (("Date: ").toList)
      ++ (a :: ((mid ++ ([z] ++ ((" +000").toList))) ++ ['0']))
      = (("Date: ").toList) ++ ((a :: (mid ++ [z])) ++ ((" +0000").toList)) := by
    simp
  rw [e1] at h1
  rw [h1]
  have e2 : a :: ((mid ++ ([z] ++ ((" +000").toList))) ++ ['0'])
      = (a :: (mid ++ [z])) ++ ((" +0000").toList) := by
    simp
  rw [e2]
  have h2 := stripSet_eq_of_ends utcSuffixChars a z [] ((" +0000").toList) mid
    (fun x hx => absurd hx (List.not_mem_nil x)) (by decide) ha2 hz
  rw [List.nil_append] at h2
  exact h2

/-- C8, amended claim witness: a clean-ended date text with offset +0000 is
stripped exactly. -/
theorem c8_charset_strip_witness :
    extract_date ((("Date: ").toList)
        ++ (('W' :: ((("ed Jan 1 10:00:00 201").toList) ++ ['9']))
          ++ ((" +0000").toList)))
      = 'W' :: ((("ed Jan 1 10:00:00 201").toList) ++ ['9']) :=
  c8_charset_strip 'W' (("ed Jan 1 10:00:00 201").toList) '9'
    (by decide) (by decide) (by decide)

/-- C9, counterexample: two runs over identical gateway outputs (the same
three branch commits with the same fingerprints) whose parallel fetches
complete in different orders produce different reports: the ordering of refs
inside the "duplicate of [...]" annotation follows the nondeterministic
dict insertion order of `imap_unordered` results. -/
theorem c9_byte_identity_refuted :
    (main_core ["c1", "c2", "c3"] []
        [(("c1" : String), infoWith "F" ""), (("c2" : String), infoWith "F" ""),
         (("c3" : String), infoWith "F" "")] []).report
    ≠ (main_core ["c1", "c2", "c3"] []
        [(("c1" : String), infoWith "F" ""), (("c3" : String), infoWith "F" ""),
         (("c2" : String), infoWith "F" "")] []).report := by
  decide

end RebaseList
